import Mathlib

/-!
Verification of the N-Queens simulated-annealing network
(shallow embedding of `src/n-queens_1.py`).

Machine-level remarks on the embedding:
* board entries and weights are Python ints, embedded as `ℤ`;
* temperature, alpha and probabilities are floats, embedded as `ℚ`
  (the only floating-point facts used by the claims are exact ones:
  `exp 0 = 1`, `1.0/(1.0+1.0) = 0.5`, sign comparisons);
* `math.exp` together with its possible `OverflowError` is embedded as a
  parameter `expFn : ℚ → Option ℚ`, `none` meaning the exception was raised;
* the process-wide random source is embedded by passing the drawn values
  (cell coordinates and the uniform float) as explicit arguments.
-/

namespace NQueens

/-- `d` from the source: the delta function, 1 on equal arguments. -/
def d (i j : ℤ) : ℤ := if i = j then 1 else 0

/-- `nd` from the source: the negated delta function. -/
def nd (i j : ℤ) : ℤ := if i = j then 0 else 1

def p_a : ℤ := 1
def p_b : ℤ := 1
def p_c : ℤ := 1
def p_d : ℤ := 1

/-- The weight expression of the source's comprehension, in the variable
names `x y a b` used there. -/
def weightExpr (x y a b : ℤ) : ℤ :=
  -2*p_a*(nd x a)*(d y b) - 2*p_b*(nd y b)*(d x a)
    - 2*p_c*(d (x-y) (a-b)) - 2*p_d*(d (x+y) (a+b))

/-- The stored tensor.  The source's comprehension nests `b, a, y, x` from
outermost to innermost, so the entry `weight[x][y][a][b]` holds
`weightExpr` evaluated with the comprehension variables `x:=b, y:=a, a:=y,
b:=x`; afterwards the loop `self.weight[x][y][x][y] = 0` zeroes the
diagonal. -/
def weightFun (x y a b : ℤ) : ℤ :=
  if x = a ∧ y = b then 0 else weightExpr b a y x

/-- `theta = -2*(p_a+p_b)` from the source. -/
def theta : ℤ := -2*(p_a + p_b)

/-- The `Network` object: board size, unit grid, weight tensor, threshold,
temperature and decay factor. -/
structure Network where
  size : ℕ
  unit : ℕ → ℕ → ℤ
  weight : ℤ → ℤ → ℤ → ℤ → ℤ
  theta : ℤ
  temperature : ℚ
  alpha : ℚ

/-- `Network.__init__`: the unit grid is
`[[1 if i == j else 0 for i in range(size)] for j in range(size)]`
(so `unit[j][i] = 1` iff `i = j`), the tensor is `weightFun`, the
threshold `theta`. -/
def Network.init (size : ℕ) (temperature alpha : ℚ) : Network :=
  { size := size
    unit := fun j i => if i = j then 1 else 0
    weight := weightFun
    theta := NQueens.theta
    temperature := temperature
    alpha := alpha }

/-- The input value accumulated by `update` for the selected cell:
`val_in = -theta + Σ_{a,b} weight[rx][ry][a][b] * unit[a][b]`. -/
def valIn (net : Network) (rx ry : ℕ) : ℤ :=
  -net.theta + ∑ a ∈ Finset.range net.size, ∑ b ∈ Finset.range net.size,
      net.weight rx ry a b * net.unit a b

/-- The probability computation of `update`:
`p = 1.0 / (1.0 + exp(-val_in/temperature))`, and when the exponential
raises (`expFn` returns `none`) the fallback
`vv = -val_in/temperature; p = 0.0 if vv > 0 else 1.0 if vv < 0 else 0.5`. -/
def probOf (expFn : ℚ → Option ℚ) (v : ℤ) (temp : ℚ) : ℚ :=
  match expFn (-(v:ℚ) / temp) with
  | some e => 1 / (1 + e)
  | none => if -(v:ℚ) / temp > 0 then 0 else if -(v:ℚ) / temp < 0 then 1 else 1/2

/-- `Network.update`: pick the cell `(rx, ry)`, compute the activation
probability from the current temperature, decay the temperature by
`alpha`, set the cell to 1 when `p > u` (the uniform draw) else 0, and
return whether the cell's value changed. -/
def Network.update (net : Network) (expFn : ℚ → Option ℚ) (rx ry : ℕ) (u : ℚ) :
    Network × Bool :=
  let p := probOf expFn (valIn net rx ry) net.temperature
  let newTemp := net.temperature * net.alpha
  let val : ℤ := if p > u then 1 else 0
  if val ≠ net.unit rx ry then
    ({ net with
        unit := fun a b => if a = rx ∧ b = ry then val else net.unit a b
        temperature := newTemp }, true)
  else
    ({ net with temperature := newTemp }, false)

/-- `Network.energy`:
`-item1/2.0 + item2 + size` with
`item1 = Σ_{x,y,a,b} weight[x][y][a][b]*unit[x][y]*unit[a][b]` and
`item2 = Σ_{x,y} theta*unit[x][y]`. -/
def Network.energy (net : Network) : ℚ :=
  let item1 : ℤ := ∑ x ∈ Finset.range net.size, ∑ y ∈ Finset.range net.size,
    ∑ a ∈ Finset.range net.size, ∑ b ∈ Finset.range net.size,
      net.weight x y a b * net.unit x y * net.unit a b
  let item2 : ℤ := ∑ x ∈ Finset.range net.size, ∑ y ∈ Finset.range net.size,
      net.theta * net.unit x y
  let e : ℚ := -(item1 : ℚ)/2 + (item2 : ℚ) + (net.size : ℚ)
  e

/-- `Network.is_active`: a cell holds a queen iff its value equals 1. -/
def is_active (val : ℤ) : Bool := val = 1

/-- The set of mask cells marked by `check` for an active cell `p`: its
row, its column, and both diagonals (the source's four marking loops mark
exactly the in-range cells satisfying one of these equations). -/
def covered (p q : ℕ × ℕ) : Bool :=
  decide (q.2 = p.2 ∨ q.1 = p.1 ∨ (q.1:ℤ) - q.2 = (p.1:ℤ) - p.2 ∨ q.1 + q.2 = p.1 + p.2)

/-- The scan loop of `Network.check`: walk the cells, and at each active
cell either fail (`none`, the source's early `return False`) when its mask
entry is set, or mark everything it covers and continue counting. -/
def checkAux (unit : ℕ → ℕ → ℤ) : List (ℕ × ℕ) → ((ℕ × ℕ) → Bool) → ℕ → Option ℕ
  | [], _, count => some count
  | q :: rest, mask, count =>
    if is_active (unit q.1 q.2) then
      if mask q then none
      else checkAux unit rest (fun c => mask c || covered q c) (count + 1)
    else checkAux unit rest mask count

/-- The row-major enumeration of the board cells. -/
def cellsList (N : ℕ) : List (ℕ × ℕ) := List.range N ×ˢ List.range N

/-- `Network.check`: scan all cells in row-major order starting from the
all-clear mask; answer `count == size` unless the scan failed. -/
def Network.check (net : Network) : Bool :=
  match checkAux net.unit (cellsList net.size) (fun _ => false) 0 with
  | none => false
  | some count => count == net.size

/-- The specification's notion of a feasible configuration, written from
the spec's words: exactly `N` active cells, and no two active cells share
a row, a column, a "/"-diagonal (equal `x - y`) or a "\"-diagonal (equal
`x + y`). -/
def Feasible (N : ℕ) (u : ℕ → ℕ → ℤ) : Prop :=
  (∑ x ∈ Finset.range N, ∑ y ∈ Finset.range N, (if u x y = 1 then (1:ℕ) else 0)) = N ∧
  ∀ x < N, ∀ y < N, ∀ a < N, ∀ b < N,
    u x y = 1 → u a b = 1 → (x, y) ≠ (a, b) →
    x ≠ a ∧ y ≠ b ∧ (x:ℤ) - y ≠ (a:ℤ) - b ∧ x + y ≠ a + b

/-- One random draw of the driver loop: the two `randrange(size)` values
and the `random.random()` value of one `update` call. -/
structure Draw where
  rx : ℕ
  ry : ℕ
  u : ℚ

/-- Outcome of the driver loop `train`. -/
inductive TrainOutcome where
  | solved : TrainOutcome
  | exhausted : TrainOutcome
deriving DecidableEq

/-- The state reached after running `update` once per listed draw. -/
def runNet (expFn : ℚ → Option ℚ) : Network → List Draw → Network
  | net, [] => net
  | net, i :: rest => runNet expFn (net.update expFn i.rx i.ry i.u).1 rest

/-- The loop of `train`: one `update` per iteration; only when `update`
returns `True` is `check` consulted, and a `True` answer stops the run as
solved; running out of iterations is `exhausted`. -/
def trainFrom (expFn : ℚ → Option ℚ) : Network → List Draw → TrainOutcome
  | _, [] => .exhausted
  | net, i :: rest =>
    let r := net.update expFn i.rx i.ry i.u
    if r.2 then
      if r.1.check then .solved else trainFrom expFn r.1 rest
    else trainFrom expFn r.1 rest

/-- `train`: build the network and run the loop; the iteration budget is
the length of the supplied list of draws. -/
def train (expFn : ℚ → Option ℚ) (size : ℕ) (temperature alpha : ℚ)
    (draws : List Draw) : TrainOutcome :=
  trainFrom expFn (Network.init size temperature alpha) draws

end NQueens

namespace NQueens

/-! ### Characterization of the weight tensor -/

/-- Pointwise characterization of the stored tensor: entry
`weight[x][y][a][b]` is `-2` times the number of constraint relations
(same row with different column, same column with different row, same
"/"-diagonal, same "\"-diagonal) holding between the two distinct cells
`(x,y)` and `(a,b)`, and `0` on the diagonal of the tensor. -/
theorem weightFun_eq (x y a b : ℤ) :
    weightFun x y a b =
      -2 * (((if x = a ∧ y ≠ b then 1 else 0) : ℤ)
        + (if y = b ∧ x ≠ a then 1 else 0)
        + (if x - y = a - b ∧ ¬(x = a ∧ y = b) then 1 else 0)
        + (if x + y = a + b ∧ ¬(x = a ∧ y = b) then 1 else 0)) := by
  simp only [weightFun, weightExpr, d, nd, p_a, p_b, p_c, p_d]
  split_ifs <;> omega

theorem weightFun_symm (x y a b : ℤ) : weightFun x y a b = weightFun a b x y := by
  rw [weightFun_eq, weightFun_eq]
  split_ifs <;> omega

/-- `update` either rewrites exactly the selected cell to a binary value
different from the old one and reports `true`, or leaves the whole grid
alone and reports `false`; in both branches the temperature is multiplied
by `alpha` and every other field is kept. -/
theorem update_cases (net : Network) (expFn : ℚ → Option ℚ) (rx ry : ℕ) (u : ℚ) :
    (∃ v : ℤ, (v = 0 ∨ v = 1) ∧ v ≠ net.unit rx ry ∧
      net.update expFn rx ry u =
        ({ net with
            unit := fun a b => if a = rx ∧ b = ry then v else net.unit a b
            temperature := net.temperature * net.alpha }, true)) ∨
    net.update expFn rx ry u =
      ({ net with temperature := net.temperature * net.alpha }, false) := by
  unfold Network.update
  dsimp only
  split
  · split
    case isTrue h => exact Or.inl ⟨1, Or.inr rfl, h, rfl⟩
    case isFalse h => exact Or.inr rfl
  · split
    case isTrue h => exact Or.inl ⟨0, Or.inl rfl, h, rfl⟩
    case isFalse h => exact Or.inr rfl

end NQueens

namespace NQueens

/-! ### Claim C3: symmetry of the tensor -/

/-- C3: for every board size `N` and all indices `x, y, a, b` below `N`,
the constructed interaction tensor satisfies
`weight[x][y][a][b] = weight[a][b][x][y]`. -/
theorem weight_symmetric (N : ℕ) (t al : ℚ) :
    ∀ x < N, ∀ y < N, ∀ a < N, ∀ b < N,
      (Network.init N t al).weight x y a b = (Network.init N t al).weight a b x y := by
  intro x _ y _ a _ b _
  exact weightFun_symm x y a b

theorem weight_symmetric_witness :
    (Network.init 4 (1:ℚ) (1/2)).weight 0 1 2 3 = (Network.init 4 (1:ℚ) (1/2)).weight 2 3 0 1 :=
  weight_symmetric 4 1 (1/2) 0 (by decide) 1 (by decide) 2 (by decide) 3 (by decide)

/-! ### Claim C9: off-diagonal entries are 0 or -2 -/

/-- C9: for every `N` and every pair of distinct cells `(x,y) ≠ (a,b)`
with all indices below `N`, the constructed `weight[x][y][a][b]` is
exactly `0` or exactly `-2`: two distinct cells satisfy at most one of
the four constraint relations, so the penalties never accumulate. -/
theorem weight_off_diag_values (N : ℕ) (t al : ℚ) :
    ∀ x < N, ∀ y < N, ∀ a < N, ∀ b < N, (x, y) ≠ (a, b) →
      (Network.init N t al).weight x y a b = 0 ∨
      (Network.init N t al).weight x y a b = -2 := by
  intro x _ y _ a _ b _ hne
  rw [Ne, Prod.mk.injEq] at hne
  show weightFun x y a b = 0 ∨ weightFun x y a b = -2
  rw [weightFun_eq]
  split_ifs <;> omega

theorem weight_off_diag_values_witness :
    (Network.init 4 (1:ℚ) (1/2)).weight 0 1 2 3 = 0 ∨
    (Network.init 4 (1:ℚ) (1/2)).weight 0 1 2 3 = -2 :=
  weight_off_diag_values 4 1 (1/2) 0 (by decide) 1 (by decide) 2 (by decide) 3
    (by decide) (by decide)

/-! ### Claim C7: construction succeeds and yields the identity grid -/

/-- C7: for every `N ≥ 1` (including `N < 4`), any positive temperature
and any `alpha ∈ (0,1)`, construction succeeds (in this embedding it is a
total function into `Network`) and the initial grid is exactly the
identity permutation. -/
theorem init_identity (N : ℕ) (t al : ℚ) (_hN : 1 ≤ N) (_ht : 0 < t)
    (_hal : 0 < al ∧ al < 1) :
    ∀ i j, (Network.init N t al).unit i j = if i = j then 1 else 0 := by
  intro i j
  show (if j = i then (1:ℤ) else 0) = if i = j then 1 else 0
  by_cases h : i = j <;> simp [h, eq_comm]

theorem init_identity_witness :
    (Network.init 2 (1:ℚ) (1/2)).unit 0 1 = if 0 = 1 then 1 else 0 :=
  init_identity 2 1 (1/2) (by decide) (by norm_num) (by norm_num) 0 1

/-! ### Claim C5: unconditional geometric temperature decay -/

/-- C5: every call to `update` multiplies the temperature by exactly
`alpha`, once, whether it returns `true` or `false`; hence with
`alpha ∈ (0,1)` and positive temperature the temperature strictly
decreases at every call. -/
theorem update_temperature_decay (net : Network) (expFn : ℚ → Option ℚ)
    (rx ry : ℕ) (u : ℚ) :
    (net.update expFn rx ry u).1.temperature = net.temperature * net.alpha ∧
    (0 < net.temperature → 0 < net.alpha → net.alpha < 1 →
      (net.update expFn rx ry u).1.temperature < net.temperature) := by
  have h : (net.update expFn rx ry u).1.temperature = net.temperature * net.alpha := by
    rcases update_cases net expFn rx ry u with ⟨v, _, _, hu⟩ | hu <;> rw [hu]
  refine ⟨h, fun ht _ h1 => ?_⟩
  rw [h]
  exact mul_lt_of_lt_one_right ht h1

theorem update_temperature_decay_witness :
    ((Network.init 2 2 (1/2)).update (fun _ => some 1) 0 0 0).1.temperature
      = (Network.init 2 2 (1/2)).temperature * (Network.init 2 2 (1/2)).alpha ∧
    ((Network.init 2 2 (1/2)).update (fun _ => some 1) 0 0 0).1.temperature
      < (Network.init 2 2 (1/2)).temperature :=
  ⟨(update_temperature_decay (Network.init 2 2 (1/2)) (fun _ => some 1) 0 0 0).1,
   (update_temperature_decay (Network.init 2 2 (1/2)) (fun _ => some 1) 0 0 0).2
     (by norm_num [Network.init]) (by norm_num [Network.init]) (by norm_num [Network.init])⟩

/-! ### Claim C6: frame property of update -/

/-- C6: one call to `update` changes at most the selected cell `(rx,ry)`
of the grid; the weight tensor, the threshold, the size and every other
cell are unchanged; and the returned Boolean is `true` iff the selected
cell's value actually changed. -/
theorem update_frame (net : Network) (expFn : ℚ → Option ℚ) (rx ry : ℕ) (u : ℚ) :
    (∀ a b, ¬(a = rx ∧ b = ry) → (net.update expFn rx ry u).1.unit a b = net.unit a b) ∧
    (net.update expFn rx ry u).1.weight = net.weight ∧
    (net.update expFn rx ry u).1.theta = net.theta ∧
    (net.update expFn rx ry u).1.size = net.size ∧
    ((net.update expFn rx ry u).2 = true ↔
      (net.update expFn rx ry u).1.unit rx ry ≠ net.unit rx ry) := by
  rcases update_cases net expFn rx ry u with ⟨v, _, hv, hu⟩ | hu <;> rw [hu]
  · refine ⟨fun a b hab => ?_, rfl, rfl, rfl, ?_⟩
    · exact if_neg hab
    · refine ⟨fun _ => ?_, fun _ => rfl⟩
      show (if rx = rx ∧ ry = ry then v else net.unit rx ry) ≠ net.unit rx ry
      rw [if_pos (And.intro rfl rfl)]
      exact hv
  · refine ⟨fun a b _ => rfl, rfl, rfl, rfl, ?_⟩
    simp only [Bool.false_eq_true, false_iff, ne_eq, not_not]

theorem update_frame_witness :
    ((Network.init 2 1 (1/2)).update (fun _ => some 1) 0 0 0).1.unit 1 0
      = (Network.init 2 1 (1/2)).unit 1 0 :=
  (update_frame (Network.init 2 1 (1/2)) (fun _ => some 1) 0 0 0).1 1 0 (by decide)

/-! ### Claim C8: grid entries stay in {0,1} -/

/-- The grid cells (inside the board) all hold 0 or 1. -/
def BinaryGrid (net : Network) : Prop :=
  ∀ x < net.size, ∀ y < net.size, net.unit x y = 0 ∨ net.unit x y = 1

/-- C8: the initial grid is binary, and `update` preserves binarity of
the grid (`check` and `energy` do not write the grid at all: in this
embedding they are plain functions of the network producing a Boolean
resp. a number). -/
theorem binary_grid_invariant :
    (∀ (N : ℕ) (t al : ℚ), BinaryGrid (Network.init N t al)) ∧
    (∀ (net : Network) (expFn : ℚ → Option ℚ) (rx ry : ℕ) (u : ℚ),
      BinaryGrid net → BinaryGrid (net.update expFn rx ry u).1) := by
  constructor
  · intro N t al x _ y _
    show (if y = x then (1:ℤ) else 0) = 0 ∨ (if y = x then (1:ℤ) else 0) = 1
    split <;> simp
  · intro net expFn rx ry u hbin
    rcases update_cases net expFn rx ry u with ⟨v, hv01, _, hu⟩ | hu <;>
      rw [hu] <;> intro x hx y hy
    · dsimp only at hx hy ⊢
      by_cases hxy : x = rx ∧ y = ry
      · rw [if_pos hxy]
        exact hv01
      · rw [if_neg hxy]
        exact hbin x hx y hy
    · exact hbin x hx y hy

theorem binary_grid_invariant_witness :
    BinaryGrid ((Network.init 2 1 (1/2)).update (fun _ => some 1) 0 0 0).1 :=
  binary_grid_invariant.2 (Network.init 2 1 (1/2)) (fun _ => some 1) 0 0 0
    (binary_grid_invariant.1 2 1 (1/2))

end NQueens

namespace NQueens

/-! ### Claim C4: overflow of the exponential is caught and saturated -/

theorem probOf_some (expFn : ℚ → Option ℚ) (v : ℤ) (temp e : ℚ)
    (h : expFn (-(v:ℚ) / temp) = some e) :
    probOf expFn v temp = 1 / (1 + e) := by
  unfold probOf
  rw [h]

theorem probOf_none (expFn : ℚ → Option ℚ) (v : ℤ) (temp : ℚ)
    (h : expFn (-(v:ℚ) / temp) = none) :
    probOf expFn v temp =
      if -(v:ℚ) / temp > 0 then 0 else if -(v:ℚ) / temp < 0 then 1 else 1/2 := by
  unfold probOf
  rw [h]

/-- C4: the probability computation is total (the embedding of the
`try/except` returns a value in every case, so the error never reaches
the caller); when the exponential overflows (`expFn` returns `none`) the
probability is the saturating fallback — exactly `0` when the scaled
input `val_in/temperature` is negative, exactly `1` when it is positive,
exactly `1/2` when it is zero — and with input exactly `0` the
exponential does not overflow (`exp 0 = 1` exactly) and the computed
probability is exactly `1/2`. -/
theorem prob_overflow_saturates (expFn : ℚ → Option ℚ) (v : ℤ) (temp : ℚ)
    (_ht : 0 < temp) :
    (expFn (-(v:ℚ) / temp) = none →
      probOf expFn v temp =
        if (v:ℚ) / temp < 0 then 0 else if 0 < (v:ℚ) / temp then 1 else 1/2) ∧
    (expFn 0 = some 1 → v = 0 → probOf expFn v temp = 1/2) := by
  constructor
  · intro hnone
    rw [probOf_none expFn v temp hnone]
    have hflip : -(v:ℚ) / temp = -((v:ℚ) / temp) := by ring
    rw [hflip]
    split_ifs <;> first | rfl | linarith
  · intro hzero hv
    subst hv
    have harg : -(((0:ℤ):ℚ)) / temp = 0 := by norm_num
    rw [probOf_some expFn 0 temp 1 (by rw [harg]; exact hzero)]
    norm_num

theorem prob_overflow_saturates_witness :
    (probOf (fun q => if q ≤ 709 then some 1 else none) (-710) 1 =
      if ((-710:ℤ):ℚ) / 1 < 0 then 0 else if 0 < ((-710:ℤ):ℚ) / 1 then 1 else 1/2) ∧
    (probOf (fun q => if q ≤ 709 then some 1 else none) 0 1 = 1/2) := by
  constructor
  · exact (prob_overflow_saturates (fun q => if q ≤ 709 then some 1 else none)
      (-710) 1 (by norm_num)).1 (by norm_num)
  · exact (prob_overflow_saturates (fun q => if q ≤ 709 then some 1 else none)
      0 1 (by norm_num)).2 (by norm_num) rfl

end NQueens

namespace NQueens

/-! ### Claim C2: energy of a feasible configuration -/

/-- The constructed network with its grid replaced: tensor and threshold
are the constructed ones (which no operation ever rewrites, see the frame
property of `update`), the grid is arbitrary. -/
def withGrid (N : ℕ) (t al : ℚ) (u : ℕ → ℕ → ℤ) : Network :=
  { Network.init N t al with unit := u }

theorem item1_eq_zero_of_feasible (N : ℕ) (u : ℕ → ℕ → ℤ)
    (hbin : ∀ x < N, ∀ y < N, u x y = 0 ∨ u x y = 1)
    (hfree : ∀ x < N, ∀ y < N, ∀ a < N, ∀ b < N,
      u x y = 1 → u a b = 1 → (x, y) ≠ (a, b) →
      x ≠ a ∧ y ≠ b ∧ (x:ℤ) - y ≠ (a:ℤ) - b ∧ x + y ≠ a + b) :
    (∑ x ∈ Finset.range N, ∑ y ∈ Finset.range N, ∑ a ∈ Finset.range N,
      ∑ b ∈ Finset.range N, weightFun x y a b * u x y * u a b) = 0 := by
  apply Finset.sum_eq_zero; intro x hx
  apply Finset.sum_eq_zero; intro y hy
  apply Finset.sum_eq_zero; intro a ha
  apply Finset.sum_eq_zero; intro b hb
  rw [Finset.mem_range] at hx hy ha hb
  rcases hbin x hx y hy with h | h
  · rw [h]; ring
  rcases hbin a ha b hb with h' | h'
  · rw [h']; ring
  by_cases heq : (x, y) = (a, b)
  · rw [Prod.mk.injEq] at heq
    obtain ⟨hxa, hyb⟩ := heq
    subst hxa; subst hyb
    have hw : weightFun x y x y = 0 := by
      unfold weightFun
      rw [if_pos (And.intro rfl rfl)]
    rw [hw]; ring
  · obtain ⟨n1, n2, n3, n4⟩ := hfree x hx y hy a ha b hb h h' heq
    have hw : weightFun x y a b = 0 := by
      rw [weightFun_eq]
      split_ifs <;> omega
    rw [hw]; ring

theorem item2_eq_of_count (N : ℕ) (u : ℕ → ℕ → ℤ)
    (hbin : ∀ x < N, ∀ y < N, u x y = 0 ∨ u x y = 1)
    (hcount : (∑ x ∈ Finset.range N, ∑ y ∈ Finset.range N,
      (if u x y = 1 then (1:ℕ) else 0)) = N) :
    (∑ x ∈ Finset.range N, ∑ y ∈ Finset.range N, NQueens.theta * u x y)
      = -4 * (N:ℤ) := by
  have hsum : (∑ x ∈ Finset.range N, ∑ y ∈ Finset.range N, u x y) = (N:ℤ) := by
    have hcast : (∑ x ∈ Finset.range N, ∑ y ∈ Finset.range N, u x y)
        = ((∑ x ∈ Finset.range N, ∑ y ∈ Finset.range N,
            (if u x y = 1 then (1:ℕ) else 0) : ℕ) : ℤ) := by
      push_cast
      apply Finset.sum_congr rfl; intro x hx
      apply Finset.sum_congr rfl; intro y hy
      rw [Finset.mem_range] at hx hy
      rcases hbin x hx y hy with h | h <;> rw [h] <;> simp
    rw [hcast, hcount]
  calc (∑ x ∈ Finset.range N, ∑ y ∈ Finset.range N, NQueens.theta * u x y)
      = NQueens.theta * ∑ x ∈ Finset.range N, ∑ y ∈ Finset.range N, u x y := by
        simp_rw [Finset.mul_sum]
    _ = -4 * (N:ℤ) := by
        rw [hsum]
        norm_num [NQueens.theta, p_a, p_b]

theorem energy_eq_of_feasible (N : ℕ) (t al : ℚ) (u : ℕ → ℕ → ℤ)
    (hbin : ∀ x < N, ∀ y < N, u x y = 0 ∨ u x y = 1)
    (hfeas : Feasible N u) :
    (withGrid N t al u).energy = -3 * (N:ℚ) := by
  obtain ⟨hcount, hfree⟩ := hfeas
  show -((∑ x ∈ Finset.range N, ∑ y ∈ Finset.range N, ∑ a ∈ Finset.range N,
      ∑ b ∈ Finset.range N, weightFun x y a b * u x y * u a b : ℤ) : ℚ)/2
    + ((∑ x ∈ Finset.range N, ∑ y ∈ Finset.range N, NQueens.theta * u x y : ℤ) : ℚ)
    + (N:ℚ) = -3 * (N:ℚ)
  rw [item1_eq_zero_of_feasible N u hbin hfree, item2_eq_of_count N u hbin hcount]
  push_cast
  ring

end NQueens

namespace NQueens

/-! ### Lower bound for the energy over binary grids -/

theorem two_mul_sub_le (r : ℤ) : 2*(r - 1) ≤ r*r - r := by
  rcases le_or_lt r 1 with h | h
  · nlinarith
  · nlinarith

theorem sum_collapse (N x : ℕ) (hx : x < N) (g : ℕ → ℤ) :
    (∑ a ∈ Finset.range N, if x = a then g a else 0) = g x := by
  rw [Finset.sum_ite_eq]
  exact if_pos (Finset.mem_range.mpr hx)

/-- The same-row pair count: summing the row indicator against the grid
twice counts, per row, the ordered pairs of distinct active columns. -/
theorem rowT_eq (N : ℕ) (u : ℕ → ℕ → ℤ)
    (hbin : ∀ x < N, ∀ y < N, u x y = 0 ∨ u x y = 1) :
    (∑ x ∈ Finset.range N, ∑ y ∈ Finset.range N, ∑ a ∈ Finset.range N,
        ∑ b ∈ Finset.range N, (if x = a ∧ y ≠ b then (1:ℤ) else 0) * u x y * u a b)
      = ∑ x ∈ Finset.range N,
          ((∑ y ∈ Finset.range N, u x y) * (∑ y ∈ Finset.range N, u x y)
            - ∑ y ∈ Finset.range N, u x y) := by
  apply Finset.sum_congr rfl
  intro x hx
  rw [Finset.mem_range] at hx
  have step1 : ∀ y, (∑ a ∈ Finset.range N, ∑ b ∈ Finset.range N,
      (if x = a ∧ y ≠ b then (1:ℤ) else 0) * u x y * u a b)
      = ∑ b ∈ Finset.range N, (if y = b then 0 else 1) * u x y * u x b := by
    intro y
    have hpt : ∀ a, (∑ b ∈ Finset.range N,
        (if x = a ∧ y ≠ b then (1:ℤ) else 0) * u x y * u a b)
        = if x = a then
            (∑ b ∈ Finset.range N, (if y = b then 0 else 1) * u x y * u a b)
          else 0 := by
      intro a
      by_cases hxa : x = a
      · rw [if_pos hxa]
        apply Finset.sum_congr rfl
        intro b _
        by_cases hyb : y = b
        · rw [if_neg (by tauto), if_pos hyb]
        · rw [if_pos ⟨hxa, hyb⟩, if_neg hyb]
      · rw [if_neg hxa]
        apply Finset.sum_eq_zero
        intro b _
        rw [if_neg (by tauto)]
        ring
    rw [Finset.sum_congr rfl (fun a _ => hpt a), sum_collapse N x hx]
  calc (∑ y ∈ Finset.range N, ∑ a ∈ Finset.range N, ∑ b ∈ Finset.range N,
        (if x = a ∧ y ≠ b then (1:ℤ) else 0) * u x y * u a b)
      = ∑ y ∈ Finset.range N, ∑ b ∈ Finset.range N,
          (if y = b then 0 else 1) * u x y * u x b :=
        Finset.sum_congr rfl (fun y _ => step1 y)
    _ = ∑ y ∈ Finset.range N, ∑ b ∈ Finset.range N,
          (u x y * u x b - (if y = b then 1 else 0) * u x y * u x b) := by
        apply Finset.sum_congr rfl; intro y _
        apply Finset.sum_congr rfl; intro b _
        split_ifs <;> ring
    _ = (∑ y ∈ Finset.range N, ∑ b ∈ Finset.range N, u x y * u x b)
        - ∑ y ∈ Finset.range N, ∑ b ∈ Finset.range N,
            (if y = b then (1:ℤ) else 0) * u x y * u x b := by
        simp only [Finset.sum_sub_distrib]
    _ = (∑ y ∈ Finset.range N, u x y) * (∑ y ∈ Finset.range N, u x y)
        - ∑ y ∈ Finset.range N, u x y * u x y := by
        rw [Finset.sum_mul_sum]
        congr 1
        apply Finset.sum_congr rfl; intro y hy
        rw [Finset.mem_range] at hy
        have hb : ∀ b, (if y = b then (1:ℤ) else 0) * u x y * u x b
            = if y = b then u x y * u x b else 0 := by
          intro b; split_ifs <;> ring
        rw [Finset.sum_congr rfl (fun b _ => hb b), sum_collapse N y hy]
    _ = (∑ y ∈ Finset.range N, u x y) * (∑ y ∈ Finset.range N, u x y)
        - ∑ y ∈ Finset.range N, u x y := by
        congr 1
        apply Finset.sum_congr rfl; intro y hy
        rw [Finset.mem_range] at hy
        rcases hbin x hx y hy with h | h <;> rw [h] <;> ring

/-- Same-column pair count, by transposing the grid. -/
theorem colT_eq (N : ℕ) (u : ℕ → ℕ → ℤ)
    (hbin : ∀ x < N, ∀ y < N, u x y = 0 ∨ u x y = 1) :
    (∑ x ∈ Finset.range N, ∑ y ∈ Finset.range N, ∑ a ∈ Finset.range N,
        ∑ b ∈ Finset.range N, (if y = b ∧ x ≠ a then (1:ℤ) else 0) * u x y * u a b)
      = ∑ y ∈ Finset.range N,
          ((∑ x ∈ Finset.range N, u x y) * (∑ x ∈ Finset.range N, u x y)
            - ∑ x ∈ Finset.range N, u x y) := by
  have ht := rowT_eq N (fun i j => u j i) (fun i hi j hj => hbin j hj i hi)
  dsimp only at ht
  calc (∑ x ∈ Finset.range N, ∑ y ∈ Finset.range N, ∑ a ∈ Finset.range N,
        ∑ b ∈ Finset.range N, (if y = b ∧ x ≠ a then (1:ℤ) else 0) * u x y * u a b)
      = ∑ y ∈ Finset.range N, ∑ x ∈ Finset.range N, ∑ a ∈ Finset.range N,
        ∑ b ∈ Finset.range N, (if y = b ∧ x ≠ a then (1:ℤ) else 0) * u x y * u a b :=
        Finset.sum_comm
    _ = ∑ y ∈ Finset.range N, ∑ x ∈ Finset.range N, ∑ b ∈ Finset.range N,
        ∑ a ∈ Finset.range N, (if y = b ∧ x ≠ a then (1:ℤ) else 0) * u x y * u a b := by
        apply Finset.sum_congr rfl; intro y _
        apply Finset.sum_congr rfl; intro x _
        exact Finset.sum_comm
    _ = ∑ y ∈ Finset.range N,
          ((∑ x ∈ Finset.range N, u x y) * (∑ x ∈ Finset.range N, u x y)
            - ∑ x ∈ Finset.range N, u x y) := ht

/-- Pointwise domination of the weight by its row and column parts. -/
theorem item1_le_rowcol (N : ℕ) (u : ℕ → ℕ → ℤ)
    (hbin : ∀ x < N, ∀ y < N, u x y = 0 ∨ u x y = 1) :
    (∑ x ∈ Finset.range N, ∑ y ∈ Finset.range N, ∑ a ∈ Finset.range N,
        ∑ b ∈ Finset.range N, weightFun x y a b * u x y * u a b)
      ≤ (-2) * (∑ x ∈ Finset.range N, ∑ y ∈ Finset.range N, ∑ a ∈ Finset.range N,
          ∑ b ∈ Finset.range N, (if x = a ∧ y ≠ b then (1:ℤ) else 0) * u x y * u a b)
        + (-2) * (∑ x ∈ Finset.range N, ∑ y ∈ Finset.range N, ∑ a ∈ Finset.range N,
          ∑ b ∈ Finset.range N, (if y = b ∧ x ≠ a then (1:ℤ) else 0) * u x y * u a b) := by
  have hsum : (-2) * (∑ x ∈ Finset.range N, ∑ y ∈ Finset.range N, ∑ a ∈ Finset.range N,
          ∑ b ∈ Finset.range N, (if x = a ∧ y ≠ b then (1:ℤ) else 0) * u x y * u a b)
        + (-2) * (∑ x ∈ Finset.range N, ∑ y ∈ Finset.range N, ∑ a ∈ Finset.range N,
          ∑ b ∈ Finset.range N, (if y = b ∧ x ≠ a then (1:ℤ) else 0) * u x y * u a b)
      = ∑ x ∈ Finset.range N, ∑ y ∈ Finset.range N, ∑ a ∈ Finset.range N,
          ∑ b ∈ Finset.range N,
            ((-2) * ((if x = a ∧ y ≠ b then (1:ℤ) else 0) * u x y * u a b)
              + (-2) * ((if y = b ∧ x ≠ a then (1:ℤ) else 0) * u x y * u a b)) := by
    simp only [Finset.mul_sum, Finset.sum_add_distrib]
  rw [hsum]
  apply Finset.sum_le_sum; intro x hx
  apply Finset.sum_le_sum; intro y hy
  apply Finset.sum_le_sum; intro a ha
  apply Finset.sum_le_sum; intro b hb
  rw [Finset.mem_range] at hx hy ha hb
  rcases hbin x hx y hy with h | h
  · rw [h]; simp
  rcases hbin a ha b hb with h' | h'
  · rw [h, h']; simp
  rw [h, h', weightFun_eq]
  split_ifs <;> omega

/-- Per-row pigeonhole: the ordered same-row pair count is at least
`2 * (#active - N)`. -/
theorem rowT_ge (N : ℕ) (u : ℕ → ℕ → ℤ)
    (hbin : ∀ x < N, ∀ y < N, u x y = 0 ∨ u x y = 1) :
    2 * ((∑ x ∈ Finset.range N, ∑ y ∈ Finset.range N, u x y) - N)
      ≤ ∑ x ∈ Finset.range N, ∑ y ∈ Finset.range N, ∑ a ∈ Finset.range N,
          ∑ b ∈ Finset.range N, (if x = a ∧ y ≠ b then (1:ℤ) else 0) * u x y * u a b := by
  rw [rowT_eq N u hbin]
  calc 2 * ((∑ x ∈ Finset.range N, ∑ y ∈ Finset.range N, u x y) - N)
      = ∑ x ∈ Finset.range N, 2 * ((∑ y ∈ Finset.range N, u x y) - 1) := by
        rw [← Finset.mul_sum, Finset.sum_sub_distrib, Finset.sum_const,
          Finset.card_range, nsmul_eq_mul, mul_one]
    _ ≤ ∑ x ∈ Finset.range N,
          ((∑ y ∈ Finset.range N, u x y) * (∑ y ∈ Finset.range N, u x y)
            - ∑ y ∈ Finset.range N, u x y) :=
        Finset.sum_le_sum (fun x _ => two_mul_sub_le _)

theorem colT_ge (N : ℕ) (u : ℕ → ℕ → ℤ)
    (hbin : ∀ x < N, ∀ y < N, u x y = 0 ∨ u x y = 1) :
    2 * ((∑ x ∈ Finset.range N, ∑ y ∈ Finset.range N, u x y) - N)
      ≤ ∑ x ∈ Finset.range N, ∑ y ∈ Finset.range N, ∑ a ∈ Finset.range N,
          ∑ b ∈ Finset.range N, (if y = b ∧ x ≠ a then (1:ℤ) else 0) * u x y * u a b := by
  rw [colT_eq N u hbin, Finset.sum_comm (s := Finset.range N) (t := Finset.range N) (f := u)]
  calc 2 * ((∑ y ∈ Finset.range N, ∑ x ∈ Finset.range N, u x y) - N)
      = ∑ y ∈ Finset.range N, 2 * ((∑ x ∈ Finset.range N, u x y) - 1) := by
        rw [← Finset.mul_sum, Finset.sum_sub_distrib, Finset.sum_const,
          Finset.card_range, nsmul_eq_mul, mul_one]
    _ ≤ ∑ y ∈ Finset.range N,
          ((∑ x ∈ Finset.range N, u x y) * (∑ x ∈ Finset.range N, u x y)
            - ∑ x ∈ Finset.range N, u x y) :=
        Finset.sum_le_sum (fun y _ => two_mul_sub_le _)

theorem item2_eq (N : ℕ) (u : ℕ → ℕ → ℤ) :
    (∑ x ∈ Finset.range N, ∑ y ∈ Finset.range N, NQueens.theta * u x y)
      = -4 * (∑ x ∈ Finset.range N, ∑ y ∈ Finset.range N, u x y) := by
  simp_rw [← Finset.mul_sum]
  norm_num [NQueens.theta, p_a, p_b]

/-- The energy of every binary grid is at least `-3*N`. -/
theorem energy_ge (N : ℕ) (t al : ℚ) (u : ℕ → ℕ → ℤ)
    (hbin : ∀ x < N, ∀ y < N, u x y = 0 ∨ u x y = 1) :
    -3 * (N:ℚ) ≤ (withGrid N t al u).energy := by
  show -3 * (N:ℚ) ≤
    -((∑ x ∈ Finset.range N, ∑ y ∈ Finset.range N, ∑ a ∈ Finset.range N,
      ∑ b ∈ Finset.range N, weightFun x y a b * u x y * u a b : ℤ) : ℚ)/2
    + ((∑ x ∈ Finset.range N, ∑ y ∈ Finset.range N, NQueens.theta * u x y : ℤ) : ℚ)
    + (N:ℚ)
  have hA := item1_le_rowcol N u hbin
  have h1 := rowT_ge N u hbin
  have h2 := colT_ge N u hbin
  have hB := item2_eq N u
  set A := (∑ x ∈ Finset.range N, ∑ y ∈ Finset.range N, ∑ a ∈ Finset.range N,
    ∑ b ∈ Finset.range N, weightFun x y a b * u x y * u a b) with hAdef
  set B := (∑ x ∈ Finset.range N, ∑ y ∈ Finset.range N, NQueens.theta * u x y) with hBdef
  have hZ : -3 * (N:ℤ) * 2 ≤ -A + 2 * B + 2 * (N:ℤ) := by
    rw [hB]
    linarith
  have hQ : ((-3 * (N:ℤ) * 2 : ℤ) : ℚ) ≤ ((-A + 2 * B + 2 * (N:ℤ) : ℤ) : ℚ) :=
    Int.cast_le.mpr hZ
  push_cast at hQ
  linarith

end NQueens

namespace NQueens

/-! ### Claim C2: corrected statement and counterexample -/

/-- C2 (corrected): for every `N ≥ 1` and every binary grid, if the grid
is feasible then `energy` returns exactly `-3*N` (not `0`), and `-3*N` is
the global minimum of the energy over binary grids. -/
theorem energy_feasible_is_min (N : ℕ) (t al : ℚ) (u : ℕ → ℕ → ℤ) (_hN : 1 ≤ N)
    (hbin : ∀ x < N, ∀ y < N, u x y = 0 ∨ u x y = 1) :
    (Feasible N u → (withGrid N t al u).energy = -3 * (N:ℚ)) ∧
    -3 * (N:ℚ) ≤ (withGrid N t al u).energy :=
  ⟨fun hfeas => energy_eq_of_feasible N t al u hbin hfeas, energy_ge N t al u hbin⟩

theorem feasible_one : Feasible 1 (Network.init 1 1 (1/2)).unit := by
  refine ⟨by decide, ?_⟩
  intro x hx y hy a ha b hb h1 h2 hne
  have hx0 : x = 0 := by omega
  have hy0 : y = 0 := by omega
  have ha0 : a = 0 := by omega
  have hb0 : b = 0 := by omega
  subst hx0; subst hy0; subst ha0; subst hb0
  exact absurd rfl hne

/-- Counterexample to C2 as stated: the `N = 1` network's initial grid is
feasible, yet its energy is `-3`, not `0`. -/
theorem energy_feasible_ne_zero_cex :
    Feasible 1 (Network.init 1 1 (1/2)).unit ∧
    (Network.init 1 1 (1/2)).energy = -3 ∧
    (Network.init 1 1 (1/2)).energy ≠ 0 := by
  refine ⟨feasible_one, ?_, ?_⟩
  · norm_num [Network.energy, Network.init, Finset.sum_range_succ, weightFun, weightExpr,
      d, nd, NQueens.theta, p_a, p_b, p_c, p_d]
  · norm_num [Network.energy, Network.init, Finset.sum_range_succ, weightFun, weightExpr,
      d, nd, NQueens.theta, p_a, p_b, p_c, p_d]

theorem energy_feasible_is_min_witness :
    ((withGrid 1 1 (1/2) (Network.init 1 1 (1/2)).unit).energy = -3 * ((1:ℕ):ℚ)) ∧
    -3 * ((1:ℕ):ℚ) ≤ (withGrid 1 1 (1/2) (Network.init 1 1 (1/2)).unit).energy := by
  have hbin : ∀ x < 1, ∀ y < 1, (Network.init 1 1 (1/2)).unit x y = 0 ∨
      (Network.init 1 1 (1/2)).unit x y = 1 := by decide
  have h := energy_feasible_is_min 1 1 (1/2) (Network.init 1 1 (1/2)).unit
    (by decide) hbin
  exact ⟨h.1 feasible_one, h.2⟩

end NQueens

namespace NQueens

/-! ### Claim C1: the checker decides feasibility -/

/-- The invariant relation established between cells by a completed scan:
if both are active, the later one is not covered by the earlier one. -/
def scanR (unit : ℕ → ℕ → ℤ) (p q : ℕ × ℕ) : Prop :=
  unit p.1 p.2 = 1 → unit q.1 q.2 = 1 → covered p q = false

theorem covered_comm (p q : ℕ × ℕ) : covered p q = covered q p := by
  simp only [covered, decide_eq_decide]
  omega

theorem scanR_symm (unit : ℕ → ℕ → ℤ) : Symmetric (scanR unit) := by
  intro p q h hq hp
  rw [covered_comm]
  exact h hp hq

theorem checkAux_sound (unit : ℕ → ℕ → ℤ) :
    ∀ (cells : List (ℕ × ℕ)) (mask : (ℕ × ℕ) → Bool) (count c : ℕ),
      checkAux unit cells mask count = some c →
      (∀ q ∈ cells, unit q.1 q.2 = 1 → mask q = false) ∧
      List.Pairwise (scanR unit) cells ∧
      c = count + cells.countP (fun q => is_active (unit q.1 q.2)) := by
  intro cells
  induction cells with
  | nil =>
    intro mask count c h
    simp only [checkAux, Option.some.injEq] at h
    refine ⟨by simp, List.Pairwise.nil, ?_⟩
    simp [← h]
  | cons q rest ih =>
    intro mask count c h
    simp only [checkAux] at h
    by_cases hq : unit q.1 q.2 = 1
    · rw [if_pos (by simp [is_active, hq])] at h
      by_cases hm : mask q = true
      · rw [if_pos hm] at h
        exact Option.noConfusion h
      · rw [if_neg hm] at h
        obtain ⟨h1, h2, h3⟩ := ih _ _ _ h
        refine ⟨?_, ?_, ?_⟩
        · intro r hr hract
          rcases List.mem_cons.mp hr with rfl | hr'
          · exact Bool.eq_false_iff.mpr hm
          · have hor := h1 r hr' hract
            exact (Bool.or_eq_false_iff.mp hor).1
        · refine List.Pairwise.cons ?_ h2
          intro r hr _ hract
          have hor := h1 r hr hract
          exact (Bool.or_eq_false_iff.mp hor).2
        · rw [h3, List.countP_cons]
          have hact : is_active (unit q.1 q.2) = true := by simp [is_active, hq]
          rw [if_pos hact]
          omega
    · rw [if_neg (by simp [is_active, hq])] at h
      obtain ⟨h1, h2, h3⟩ := ih _ _ _ h
      refine ⟨?_, ?_, ?_⟩
      · intro r hr hract
        rcases List.mem_cons.mp hr with rfl | hr'
        · exact absurd hract hq
        · exact h1 r hr' hract
      · refine List.Pairwise.cons ?_ h2
        intro r _ hqact
        exact absurd hqact hq
      · rw [h3, List.countP_cons]
        simp [is_active, hq]

theorem checkAux_complete (unit : ℕ → ℕ → ℤ) :
    ∀ (cells : List (ℕ × ℕ)) (mask : (ℕ × ℕ) → Bool) (count : ℕ),
      (∀ q ∈ cells, unit q.1 q.2 = 1 → mask q = false) →
      List.Pairwise (scanR unit) cells →
      checkAux unit cells mask count
        = some (count + cells.countP (fun q => is_active (unit q.1 q.2))) := by
  intro cells
  induction cells with
  | nil =>
    intro mask count _ _
    simp [checkAux]
  | cons q rest ih =>
    intro mask count h1 h2
    rw [List.pairwise_cons] at h2
    obtain ⟨hq_rest, hrest⟩ := h2
    simp only [checkAux]
    by_cases hq : unit q.1 q.2 = 1
    · rw [if_pos (by simp [is_active, hq])]
      have hmq : mask q = false := h1 q (List.mem_cons_self q rest) hq
      rw [if_neg (by simp [hmq])]
      have h1' : ∀ r ∈ rest, unit r.1 r.2 = 1 →
          (fun c => mask c || covered q c) r = false := by
        intro r hr hract
        have hm : mask r = false := h1 r (List.mem_cons_of_mem q hr) hract
        have hcov : covered q r = false := hq_rest r hr hq hract
        simp [hm, hcov]
      rw [ih _ _ h1' hrest]
      rw [List.countP_cons]
      have hact : is_active (unit q.1 q.2) = true := by simp [is_active, hq]
      rw [if_pos hact]
      simp only [Option.some.injEq]
      omega
    · rw [if_neg (by simp [is_active, hq])]
      rw [ih _ _ (fun r hr => h1 r (List.mem_cons_of_mem q hr)) hrest]
      rw [List.countP_cons]
      simp [is_active, hq]

theorem check_eq_true_iff (net : Network) :
    net.check = true ↔
      List.Pairwise (scanR net.unit) (cellsList net.size) ∧
      (cellsList net.size).countP
        (fun q => is_active (net.unit q.1 q.2)) = net.size := by
  unfold Network.check
  rcases hh : checkAux net.unit (cellsList net.size) (fun _ => false) 0 with _ | c
  · constructor
    · intro hc
      exact absurd hc (by simp)
    · rintro ⟨hp, _⟩
      have hcmpl := checkAux_complete net.unit (cellsList net.size)
        (fun _ => false) 0 (by simp) hp
      rw [hh] at hcmpl
      exact Option.noConfusion hcmpl
  · obtain ⟨-, hp, hc⟩ := checkAux_sound net.unit (cellsList net.size)
      (fun _ => false) 0 c hh
    simp only [beq_iff_eq]
    constructor
    · intro hcs
      exact ⟨hp, by omega⟩
    · rintro ⟨_, hcount⟩
      omega

theorem mem_cellsList (N : ℕ) (p : ℕ × ℕ) :
    p ∈ cellsList N ↔ p.1 < N ∧ p.2 < N := by
  obtain ⟨a, b⟩ := p
  rw [cellsList, List.mem_product]
  simp [List.mem_range]

theorem nodup_cellsList (N : ℕ) : (cellsList N).Nodup :=
  (List.nodup_range N).product (List.nodup_range N)

theorem pairwise_iff_freegrid (N : ℕ) (unit : ℕ → ℕ → ℤ) :
    List.Pairwise (scanR unit) (cellsList N) ↔
    (∀ x < N, ∀ y < N, ∀ a < N, ∀ b < N,
      unit x y = 1 → unit a b = 1 → (x, y) ≠ (a, b) →
      x ≠ a ∧ y ≠ b ∧ (x:ℤ) - y ≠ (a:ℤ) - b ∧ x + y ≠ a + b) := by
  constructor
  · intro hp x hx y hy a ha b hb h1 h2 hne
    have hmem1 : ((x, y) : ℕ × ℕ) ∈ cellsList N := (mem_cellsList N _).mpr ⟨hx, hy⟩
    have hmem2 : ((a, b) : ℕ × ℕ) ∈ cellsList N := (mem_cellsList N _).mpr ⟨ha, hb⟩
    have hcov := hp.forall (scanR_symm unit) hmem1 hmem2 hne h1 h2
    simp only [covered, decide_eq_false_iff_not] at hcov
    push_neg at hcov
    omega
  · intro hfree
    apply (nodup_cellsList N).pairwise_of_forall_ne
    intro p hp q hq hne
    intro h1 h2
    rw [mem_cellsList] at hp hq
    have hpq : (p.1, p.2) ≠ (q.1, q.2) := by
      intro hc
      apply hne
      obtain ⟨p1, p2⟩ := p
      obtain ⟨q1, q2⟩ := q
      simpa using hc
    have hres := hfree p.1 hp.1 p.2 hp.2 q.1 hq.1 q.2 hq.2 h1 h2 hpq
    simp only [covered, decide_eq_false_iff_not]
    push_neg
    omega

theorem countP_cellsList (N : ℕ) (p : ℕ × ℕ → Bool) :
    (cellsList N).countP p
      = ∑ x ∈ Finset.range N, ∑ y ∈ Finset.range N, (if p (x, y) then 1 else 0) := by
  have hrow : ∀ (x : ℕ) (l : List ℕ),
      (l.map (fun b => (x, b))).countP p = (l.map (fun y => if p (x, y) then 1 else 0)).sum := by
    intro x l
    induction l with
    | nil => rfl
    | cons b t iht =>
      simp only [List.map_cons, List.countP_cons, List.sum_cons, iht]
      split_ifs <;> omega
  have hrange : ∀ (g : ℕ → ℕ), ∀ M : ℕ,
      ((List.range M).map g).sum = ∑ x ∈ Finset.range M, g x := by
    intro g M
    induction M with
    | zero => rfl
    | succ n ihn =>
      rw [List.range_succ, List.map_append, List.sum_append, Finset.sum_range_succ, ihn]
      simp
  have hmain : ∀ (l : List ℕ),
      (l ×ˢ List.range N : List (ℕ × ℕ)).countP p
        = (l.map (fun x => ∑ y ∈ Finset.range N, (if p (x, y) then 1 else 0))).sum := by
    intro l
    induction l with
    | nil => rfl
    | cons a t iht =>
      rw [List.product_cons, List.countP_append, iht, List.map_cons, List.sum_cons,
        hrow a (List.range N), hrange (fun y => if p (a, y) then 1 else 0) N]
  rw [cellsList, hmain (List.range N),
    hrange (fun x => ∑ y ∈ Finset.range N, (if p (x, y) then 1 else 0)) N]

/-- C1: for every board with `N ≥ 1` and binary grid entries, `check`
answers `true` iff the grid has exactly `N` active cells and no two
active cells share a row, a column, a "/"-diagonal or a "\"-diagonal; in
particular the one-pass covered-mask scan is equivalent to full pairwise
conflict checking. -/
theorem check_iff_feasible (net : Network) (_hN : 1 ≤ net.size)
    (_hbin : ∀ x < net.size, ∀ y < net.size,
      net.unit x y = 0 ∨ net.unit x y = 1) :
    net.check = true ↔ Feasible net.size net.unit := by
  rw [check_eq_true_iff, Feasible, pairwise_iff_freegrid, countP_cellsList]
  have hcnt : (∑ x ∈ Finset.range net.size, ∑ y ∈ Finset.range net.size,
        (if is_active (net.unit x y) then 1 else 0))
      = ∑ x ∈ Finset.range net.size, ∑ y ∈ Finset.range net.size,
        (if net.unit x y = 1 then (1:ℕ) else 0) := by
    apply Finset.sum_congr rfl; intro x _
    apply Finset.sum_congr rfl; intro y _
    simp [is_active]
  rw [hcnt]
  tauto

theorem check_iff_feasible_witness :
    (Network.init 1 1 (1/2)).check = true ↔
      Feasible (Network.init 1 1 (1/2)).size (Network.init 1 1 (1/2)).unit :=
  check_iff_feasible (Network.init 1 1 (1/2)) (by decide) (by decide)

end NQueens

namespace NQueens

/-! ### Claim C10: the driver consults check only after a changing update -/

theorem update_no_change (net : Network) (expFn : ℚ → Option ℚ) (rx ry : ℕ) (u : ℚ)
    (h : (if probOf expFn (valIn net rx ry) net.temperature > u then (1:ℤ) else 0)
      = net.unit rx ry) :
    (net.update expFn rx ry u).2 = false := by
  unfold Network.update
  dsimp only
  rw [if_neg (fun hcon => hcon h)]

/-- C10: the driver loop stops as solved exactly when some prefix of the
run ends in an `update` call that returned `true` and whose post-state
passes `check`; `check` is never consulted otherwise — in particular
never on the initial state — so a run in which no `update` ever reports a
change ends `exhausted` even if the initial state is already feasible. -/
theorem train_solved_iff (expFn : ℚ → Option ℚ) (size : ℕ) (t al : ℚ)
    (draws : List Draw) :
    (train expFn size t al draws = .solved ↔
      ∃ pre i suf, draws = pre ++ i :: suf ∧
        ((runNet expFn (Network.init size t al) pre).update expFn i.rx i.ry i.u).2
          = true ∧
        ((runNet expFn (Network.init size t al) pre).update expFn i.rx i.ry i.u).1.check
          = true) ∧
    ((∀ pre i suf, draws = pre ++ i :: suf →
        ((runNet expFn (Network.init size t al) pre).update expFn i.rx i.ry i.u).2
          = false) →
      train expFn size t al draws = .exhausted) := by
  have hiff : ∀ (net : Network) (ds : List Draw),
      trainFrom expFn net ds = .solved ↔
      ∃ pre i suf, ds = pre ++ i :: suf ∧
        ((runNet expFn net pre).update expFn i.rx i.ry i.u).2 = true ∧
        ((runNet expFn net pre).update expFn i.rx i.ry i.u).1.check = true := by
    intro net ds
    induction ds generalizing net with
    | nil =>
      constructor
      · intro h
        exact absurd h (by simp [trainFrom])
      · rintro ⟨pre, i, suf, hdec, -, -⟩
        cases pre <;> simp at hdec
    | cons j rest ih =>
      constructor
      · intro h
        simp only [trainFrom] at h
        by_cases hch0 : (net.update expFn j.rx j.ry j.u).2 = true
        · rw [if_pos hch0] at h
          by_cases hsol0 : (net.update expFn j.rx j.ry j.u).1.check = true
          · exact ⟨[], j, rest, rfl, hch0, hsol0⟩
          · rw [if_neg hsol0] at h
            obtain ⟨pre', i, suf, hdec, hch, hsol⟩ := (ih _).mp h
            exact ⟨j :: pre', i, suf, by rw [List.cons_append, hdec], hch, hsol⟩
        · rw [if_neg hch0] at h
          obtain ⟨pre', i, suf, hdec, hch, hsol⟩ := (ih _).mp h
          exact ⟨j :: pre', i, suf, by rw [List.cons_append, hdec], hch, hsol⟩
      · rintro ⟨pre, i, suf, hdec, hch, hsol⟩
        cases pre with
        | nil =>
          rw [List.nil_append] at hdec
          injection hdec with h1 h2
          subst h1
          subst h2
          simp only [runNet] at hch hsol
          simp only [trainFrom]
          rw [if_pos hch, if_pos hsol]
        | cons p pre' =>
          rw [List.cons_append] at hdec
          injection hdec with h1 h2
          subst h1
          simp only [trainFrom]
          by_cases hch0 : (net.update expFn j.rx j.ry j.u).2 = true
          · rw [if_pos hch0]
            by_cases hsol0 : (net.update expFn j.rx j.ry j.u).1.check = true
            · rw [if_pos hsol0]
            · rw [if_neg hsol0]
              exact (ih _).mpr ⟨pre', i, suf, h2, hch, hsol⟩
          · rw [if_neg hch0]
            exact (ih _).mpr ⟨pre', i, suf, h2, hch, hsol⟩
  refine ⟨hiff (Network.init size t al) draws, fun hall => ?_⟩
  rcases hres : trainFrom expFn (Network.init size t al) draws with _ | _
  · obtain ⟨pre, i, suf, hdec, hch, -⟩ := (hiff (Network.init size t al) draws).mp hres
    rw [hall pre i suf hdec] at hch
    exact Bool.noConfusion hch
  · exact hres

/-- Witness run: for `N = 1` the initial identity grid is already a
solution, yet a run whose single update does not change the cell ends
`exhausted`. -/
theorem train_solved_iff_witness :
    (Network.init 1 1 (1/2)).check = true ∧
    train (fun _ => some 1) 1 1 (1/2) [⟨0, 0, 0⟩] = .exhausted := by
  constructor
  · decide
  · apply (train_solved_iff (fun _ => some 1) 1 1 (1/2) [⟨0, 0, 0⟩]).2
    intro pre i suf hdec
    cases pre with
    | nil =>
      rw [List.nil_append] at hdec
      injection hdec with h1 h2
      subst h1
      apply update_no_change
      simp only [runNet]
      dsimp only
      have hval : valIn (Network.init 1 1 (1/2)) 0 0 = 4 := by
        norm_num [valIn, Network.init, Finset.sum_range_succ, weightFun,
          NQueens.theta, p_a, p_b]
      have hp : probOf (fun _ => some 1) (valIn (Network.init 1 1 (1/2)) 0 0)
          (Network.init 1 1 (1/2)).temperature = 1/2 := by
        rw [probOf_some _ _ _ 1 rfl]
        norm_num
      simp only [hp]
      rw [if_pos (by norm_num : (1:ℚ)/2 > 0)]
      rfl
    | cons p pre' =>
      rw [List.cons_append] at hdec
      injection hdec with h1 h2
      exact absurd h2 (by simp)

end NQueens
